import Mathlib

/-!
Shallow embedding of `waifuc/action/tagging.py` and of the source-composition
algebra exercised by `test/source/test_compose.py`, together with proofs of the
specification claims about them.

Modelling conventions:
* A Python `dict` is an insertion-ordered association list with unique keys.
  `dictInsert` updates a present key in place (keeping its position) and
  appends an absent key at the end, exactly as Python assignment does;
  `dictErase` removes the key (Python dicts hold each key at most once).
* Tag scores are rationals (`ℚ`).  The code performs no floating-point
  arithmetic on scores — only assignment of literal constants (`0`, `2.7`,
  `2.8`, `2.9`, `1e-6`) and order comparisons — so `ℚ` models the float
  values and comparisons exactly.
* The opaque PIL image handle is modelled as a `Nat`.
* External collaborators from `imgutils` (tagging backends, `anime_rating`,
  `drop_overlap_tags`, `is_blacklisted`, `remove_underline`) are parameters:
  the theorems quantify over arbitrary functions of the right shape.
-/

abbrev Score := ℚ

/-- Insertion-ordered association list standing for a Python `dict` with
string keys. -/
abbrev Dict (α : Type) := List (String × α)

/-- Python `d.get(k)` / `d[k]`: value at the (unique) key `k`, if present. -/
def dictGet? {α : Type} : Dict α → String → Option α
  | [], _ => none
  | (k', v) :: rest, k => if k' = k then some v else dictGet? rest k

/-- Python `k in d`. -/
def dictContains {α : Type} (d : Dict α) (k : String) : Bool :=
  (dictGet? d k).isSome

/-- Python `d[k] = v`: update the key in place if present (keeping its
position), otherwise append the new binding at the end. -/
def dictInsert {α : Type} : Dict α → String → α → Dict α
  | [], k, v => [(k, v)]
  | (k', v') :: rest, k, v =>
    if k' = k then (k, v) :: rest else (k', v') :: dictInsert rest k v

/-- Python `del d[k]`: remove the binding of key `k` (Python dicts hold each
key at most once, so removing every occurrence is the same operation). -/
def dictErase {α : Type} (d : Dict α) (k : String) : Dict α :=
  d.filter (fun kv => kv.1 ≠ k)

/-- Metadata values occurring in an `ImageItem`'s `meta` dict: the `tags`
mapping, a `danbooru` record (string fields, possibly `None`), plain strings
(e.g. `filename`), or other opaque values. -/
inductive MValue where
  | vTags (tags : Dict Score)
  | vDanbooru (block : Dict (Option String))
  | vStr (s : String)
  | vOpaque (n : Nat)
deriving DecidableEq

/-- `waifuc.model.ImageItem`: an (image, metadata) pair. -/
structure ImageItem where
  image : Nat
  meta : Dict MValue
deriving DecidableEq

/-- Python `dict(item.meta.get('tags') or {})`: the item's tags mapping,
defaulting to empty when the key is absent or holds a falsy value. -/
def metaTags (meta : Dict MValue) : Dict Score :=
  match dictGet? meta "tags" with
  | some (.vTags t) => t
  | _ => []

/-- Python `item.meta.get('danbooru') or {}`: the danbooru record, defaulting
to empty when absent or falsy. -/
def metaDanbooru (meta : Dict MValue) : Dict (Option String) :=
  match dictGet? meta "danbooru" with
  | some (.vDanbooru d) => d
  | _ => []

/-- Python `danbooru.get(key, None) or ''`: a string field of the danbooru
record, with `None` (and a missing key) collapsing to the empty string. -/
def danbooruField (d : Dict (Option String)) (key : String) : String :=
  match dictGet? d key with
  | some (some s) => s
  | _ => ""

/-- Whitespace characters recognised by Python `str.split()` (ASCII). -/
def pyIsSpace (c : Char) : Bool :=
  c = ' ' || c = '\t' || c = '\n' || c = '\x0d' || c = '\x0b' || c = '\x0c'

/-- Helper for `pySplit`, structurally recursive over the character list;
`cur` accumulates the current token in reverse. -/
def pySplitChars : List Char → List Char → List String
  | [], cur => if cur = [] then [] else [String.mk cur.reverse]
  | c :: rest, cur =>
    if pyIsSpace c then
      if cur = [] then pySplitChars rest []
      else String.mk cur.reverse :: pySplitChars rest []
    else pySplitChars rest (c :: cur)

/-- Python `s.split()`: split on runs of whitespace, discarding empty
tokens. -/
def pySplit (s : String) : List String :=
  pySplitChars s.data []

/-! ## `TaggingAction` -/

/-- `waifuc.action.tagging.TaggingAction`.  The tagging backend selected from
`_TAGGING_METHODS` is abstracted as a function from the (opaque) image to a
tags mapping. -/
structure TaggingAction where
  method : Nat → Dict Score
  force : Bool

/-- `TaggingAction.process`: if the item already carries a `tags` key and
`force` is unset, return the item unchanged; otherwise run the backend and
overlay its result under the `tags` key. -/
def TaggingAction.process (act : TaggingAction) (item : ImageItem) : ImageItem :=
  if dictContains item.meta "tags" && !act.force then item
  else ⟨item.image, dictInsert item.meta "tags" (.vTags (act.method item.image))⟩

/-! ## `TagFilterAction` -/

/-- The `tags` argument accepted by `TagFilterAction.__init__`: a list/tuple
of tag names, a mapping from tag to minimum score, or any other value
(which the constructor rejects). -/
inductive TagsArg where
  | ofList (tags : List String)
  | ofDict (tags : Dict Score)
  | other

/-- `waifuc.action.tagging.TagFilterAction` after construction. -/
structure TagFilterAction where
  tags : Dict Score
  tagger : TaggingAction
  reversed : Bool

/-- `TagFilterAction.__init__`: a list/tuple becomes `{tag: 1e-6 for tag in
tags}` (the near-zero sentinel `1e-6` is the rational `mkRat 1 1000000`), a
dict is copied, anything else raises `TypeError`.  The inner `TaggingAction`
is built with `force=False`. -/
def TagFilterAction.init (tags : TagsArg) (method : Nat → Dict Score)
    (rev : Bool) : Except String TagFilterAction :=
  match tags with
  | .ofList l =>
    .ok ⟨l.foldl (fun acc tag => dictInsert acc tag (mkRat 1 1000000)) [], ⟨method, false⟩, rev⟩
  | .ofDict d => .ok ⟨d, ⟨method, false⟩, rev⟩
  | .other => .error "Unknown type of tags"

/-- One iteration of the validity loop in `TagFilterAction.iter`: the check
performed for a single `(tag, min_score)` entry (the loop breaks on the first
entry whose check fails, which is observationally `List.all`). -/
def tagFilterCheck (rev : Bool) (tags : Dict Score) (kv : String × Score) : Bool :=
  let tag_score := (dictGet? tags kv.1).getD 0
  !((!rev && decide (tag_score < kv.2)) || (rev && decide (tag_score > kv.2)))

/-- `TagFilterAction.iter`: tag the item (memoized), then yield it iff every
required tag passes the score check. -/
def TagFilterAction.iter (act : TagFilterAction) (item : ImageItem) :
    List ImageItem :=
  let item := act.tagger.process item
  let tags := metaTags item.meta
  if act.tags.all (tagFilterCheck act.reversed tags) then [item] else []

/-! ## `TagOverlapDropAction` -/

/-- `TagOverlapDropAction.process`; `drop_overlap_tags` is the external
overlap-resolution function from `imgutils`, taken as a parameter. -/
def tagOverlapDrop (drop_overlap_tags : Dict Score → Dict Score)
    (item : ImageItem) : ImageItem :=
  ⟨item.image,
   dictInsert item.meta "tags" (.vTags (drop_overlap_tags (metaTags item.meta)))⟩

/-! ## `DanbooruTagProcessAction` -/

/-- One iteration of the meta-tag loop of `DanbooruTagProcessAction.process`:
whitelisted tokens are set to score 0; otherwise `elif tags.get(meta_tag):`
deletes the token only when its current score is truthy (present and
nonzero). -/
def metaTagStep (meta_whitelist : List String) (tags : Dict Score)
    (meta_tag : String) : Dict Score :=
  if meta_tag ∈ meta_whitelist then dictInsert tags meta_tag 0
  else
    match dictGet? tags meta_tag with
    | some s => if s ≠ 0 then dictErase tags meta_tag else tags
    | none => tags

/-- One iteration of the artist loop of `DanbooruTagProcessAction.process`:
`tags[artist] = 2.7; tags['artist:'+artist] = tags[artist]; del tags[artist]`.
The `none` branch of the read-back is unreachable (the key was just
inserted). -/
def artistStep (tags : Dict Score) (artist : String) : Dict Score :=
  let tags1 := dictInsert tags artist (27 / 10 : ℚ)
  match dictGet? tags1 artist with
  | some s => dictErase (dictInsert tags1 ("artist:" ++ artist) s) artist
  | none => dictErase tags1 artist

/-- `DanbooruTagProcessAction.process` (the constructor stores
`set(meta_whitelist)`, modelled as the list with membership testing). -/
def danbooruTagProcess (meta_whitelist : List String) (item : ImageItem) :
    ImageItem :=
  let tags := metaTags item.meta
  let danbooru := metaDanbooru item.meta
  let tags :=
    if danbooru = [] then tags
    else
      let tags := (pySplit (danbooruField danbooru "tag_string_meta")).foldl
        (metaTagStep meta_whitelist) tags
      let tags := (pySplit (danbooruField danbooru "tag_string_character")).foldl
        (fun tg c => dictInsert tg c (29 / 10 : ℚ)) tags
      let tags := (pySplit (danbooruField danbooru "tag_string_copyright")).foldl
        (fun tg c => dictInsert tg c (28 / 10 : ℚ)) tags
      (pySplit (danbooruField danbooru "tag_string_artist")).foldl artistStep tags
  ⟨item.image, dictInsert item.meta "tags" (.vTags tags)⟩

/-! ## `TagNSFWOrExplicitAction` -/

/-- `TagNSFWOrExplicitAction.process`; the external rating classifier
`anime_rating : image -> (rating, score)` is a parameter.  The two rating
tests are independent `if` statements, as in the source. -/
def tagNSFWOrExplicit (anime_rating : Nat → String × Score)
    (item : ImageItem) : ImageItem :=
  let rs := anime_rating item.image
  let tags := metaTags item.meta
  let tags := if rs.1 = "r15" then dictInsert tags "nsfw" rs.2 else tags
  let tags := if rs.1 = "r18" then dictInsert tags "explicit" rs.2 else tags
  ⟨item.image, dictInsert item.meta "tags" (.vTags tags)⟩

/-! ## `TagDropAction`, `BlacklistedTagDropAction`, `TagRemoveUnderlineAction` -/

/-- `TagDropAction.process`: keep the entries whose key is not in the drop
set (a dict comprehension preserves the order of the remaining entries). -/
def tagDrop (tags_to_drop : List String) (item : ImageItem) : ImageItem :=
  ⟨item.image,
   dictInsert item.meta "tags"
     (.vTags ((metaTags item.meta).filter (fun kv => !(tags_to_drop.contains kv.1))))⟩

/-- `BlacklistedTagDropAction.process`; the external predicate
`is_blacklisted` is a parameter. -/
def blacklistedTagDrop (is_blacklisted : String → Bool) (item : ImageItem) :
    ImageItem :=
  ⟨item.image,
   dictInsert item.meta "tags"
     (.vTags ((metaTags item.meta).filter (fun kv => !(is_blacklisted kv.1))))⟩

/-- `TagRemoveUnderlineAction.process`; the external normalizer
`remove_underline` is a parameter.  The dict comprehension builds a fresh
dict entry by entry, so a later duplicate key overwrites the value at the
first occurrence's position. -/
def tagRemoveUnderline (remove_underline : String → String)
    (item : ImageItem) : ImageItem :=
  ⟨item.image,
   dictInsert item.meta "tags"
     (.vTags ((metaTags item.meta).foldl
       (fun acc kv => dictInsert acc (remove_underline kv.1) kv.2) []))⟩

/-! ## Source composition (modelled from the spec) -/

/-- Modelled from the spec: the `waifuc.source` classes and their `+`
combinator are not under `src/` (only `test/source/test_compose.py` exercises
them).  A finite source is its produced item sequence, and chain is
"all of A's items, in A's order, followed by all of B's items, in B's
order". -/
def sourceChain (a b : List ImageItem) : List ImageItem := a ++ b

/-- Modelled from the spec: the `|` merge combinator is not under `src/`.
The spec requires "an interleaving of A's and B's items such that neither
source's items are fully exhausted before the other begins contributing
(round-robin or fairness-based interleaving)"; the exact granularity is an
implementation choice, and strict round-robin (alternation, appending the
leftover tail when one source runs out) is taken as the representative. -/
def sourceMerge : List ImageItem → List ImageItem → List ImageItem
  | [], b => b
  | a :: as, b => a :: sourceMerge b as
termination_by a b => a.length + b.length
decreasing_by simp; omega

/-! ## Derived definitions and concrete inputs used by the claims -/

/-- Token list of one field of an item's danbooru record. -/
def dbTokens (item : ImageItem) (key : String) : List String :=
  pySplit (danbooruField (metaDanbooru item.meta) key)

/-- Tags mapping of the item produced by `DanbooruTagProcessAction.process`
with the given whitelist. -/
def outTags (meta_whitelist : List String) (item : ImageItem) : Dict Score :=
  metaTags (danbooruTagProcess meta_whitelist item).meta

/-- Concrete item used by the C6 witness: `tag_string_character = "alice"`,
`tag_string_copyright = "wonderland"`, `tag_string_artist = "bob"`. -/
def c6Item : ImageItem :=
  ⟨0, [("danbooru", MValue.vDanbooru
    [("tag_string_character", some "alice"),
     ("tag_string_copyright", some "wonderland"),
     ("tag_string_artist", some "bob")])]⟩

/-- Concrete item refuting C1 as stated: `random_tag` is present in the input
tags with score 0 and is not whitelisted. -/
def c1Item : ImageItem :=
  ⟨0, [("tags", MValue.vTags [("random_tag", 0)]),
       ("danbooru", MValue.vDanbooru [("tag_string_meta", some "random_tag")])]⟩

/-- Concrete item used by the C1 witness: `official_art` is whitelisted,
`random_tag` is present with a nonzero score. -/
def c1WItem : ImageItem :=
  ⟨0, [("tags", MValue.vTags [("random_tag", 1)]),
       ("danbooru", MValue.vDanbooru
         [("tag_string_meta", some "official_art random_tag")])]⟩

/-- Concrete item used by the C10 witness: no `tags` key at all, whitelisted
meta token `official_art`. -/
def c10Item : ImageItem :=
  ⟨0, [("danbooru", MValue.vDanbooru [("tag_string_meta", some "official_art")])]⟩

/-- Frame property of a tag-mutating stage: the output item keeps the input
image, and its metadata is the input metadata with only the `tags` key
overlaid (every other key unchanged). -/
def overlayFrameOn (out inp : ImageItem) : Prop :=
  out.image = inp.image ∧
  (∃ t, out.meta = dictInsert inp.meta "tags" (MValue.vTags t)) ∧
  ∀ k, k ≠ "tags" → dictGet? out.meta k = dictGet? inp.meta k

/-- Items of the first concrete source for the C5 witness. -/
def c5A : List ImageItem := List.replicate 20 ⟨0, []⟩

/-- Items of the second concrete source for the C5 witness. -/
def c5B : List ImageItem := List.replicate 20 ⟨1, []⟩

/-- Source marker for the C5 witness: true exactly on `c5A`'s items. -/
def c5P (it : ImageItem) : Bool := it.image == 0

/-! ## Dictionary lemmas -/

theorem dictGet?_insert_self {α : Type} (d : Dict α) (k : String) (v : α) :
    dictGet? (dictInsert d k v) k = some v := by
  induction d with
  | nil => simp [dictInsert, dictGet?]
  | cons kv rest ih =>
    obtain ⟨k', v'⟩ := kv
    by_cases h : k' = k
    · simp [dictInsert, h, dictGet?]
    · simp [dictInsert, h, dictGet?, ih]

theorem dictGet?_insert_ne {α : Type} (d : Dict α) (k : String) (v : α)
    (k' : String) (h : k' ≠ k) :
    dictGet? (dictInsert d k v) k' = dictGet? d k' := by
  induction d with
  | nil => simp [dictInsert, dictGet?, Ne.symm h]
  | cons kv rest ih =>
    obtain ⟨k₀, v₀⟩ := kv
    by_cases h₀ : k₀ = k
    · subst h₀
      simp [dictInsert, dictGet?, Ne.symm h]
    · simp only [dictInsert, if_neg h₀, dictGet?, ih]

theorem dictGet?_erase_self {α : Type} (d : Dict α) (k : String) :
    dictGet? (dictErase d k) k = none := by
  induction d with
  | nil => rfl
  | cons kv rest ih =>
    obtain ⟨k', v'⟩ := kv
    by_cases h : k' = k
    · simpa [dictErase, List.filter_cons, h] using ih
    · simpa [dictErase, List.filter_cons, h, dictGet?] using ih

theorem dictGet?_erase_ne {α : Type} (d : Dict α) (k : String) (k' : String)
    (h : k' ≠ k) : dictGet? (dictErase d k) k' = dictGet? d k' := by
  induction d with
  | nil => rfl
  | cons kv rest ih =>
    obtain ⟨k₀, v₀⟩ := kv
    by_cases h₀ : k₀ = k
    · have hk₀ : ¬(k₀ = k') := fun hh => h (hh ▸ h₀)
      simp only [dictErase, List.filter_cons]
      rw [if_neg (by simp [h₀])]
      simp only [dictGet?, if_neg hk₀]
      exact ih
    · simp only [dictErase, List.filter_cons]
      rw [if_pos (by simp [h₀])]
      by_cases h₁ : k₀ = k'
      · simp [dictGet?, h₁]
      · simp only [dictGet?, if_neg h₁]
        exact ih

theorem mem_dictInsert {α : Type} {d : Dict α} {k : String} {v : α}
    {kv : String × α} (h : kv ∈ dictInsert d k v) : kv ∈ d ∨ kv = (k, v) := by
  induction d with
  | nil => simpa [dictInsert] using h
  | cons kv₀ rest ih =>
    obtain ⟨k₀, v₀⟩ := kv₀
    by_cases h₀ : k₀ = k
    · simp only [dictInsert, if_pos h₀] at h
      rcases List.mem_cons.mp h with h | h
      · exact Or.inr h
      · exact Or.inl (List.mem_cons_of_mem _ h)
    · simp only [dictInsert, if_neg h₀] at h
      rcases List.mem_cons.mp h with h | h
      · exact Or.inl (h ▸ List.mem_cons_self _ _)
      · rcases ih h with h | h
        · exact Or.inl (List.mem_cons_of_mem _ h)
        · exact Or.inr h

theorem dictGet?_mem {α : Type} {d : Dict α} {k : String} {v : α}
    (h : dictGet? d k = some v) : (k, v) ∈ d := by
  induction d with
  | nil => simp [dictGet?] at h
  | cons kv rest ih =>
    obtain ⟨k₀, v₀⟩ := kv
    by_cases h₀ : k₀ = k
    · subst h₀
      simp [dictGet?] at h
      subst h
      exact List.mem_cons_self _ _
    · simp only [dictGet?, if_neg h₀] at h
      exact List.mem_cons_of_mem _ (ih h)

theorem metaTags_overlay (m : Dict MValue) (t : Dict Score) :
    metaTags (dictInsert m "tags" (.vTags t)) = t := by
  simp [metaTags, dictGet?_insert_self]

/-! ## String facts about the artist prefix -/

theorem artistPrefix_ne (a : String) : "artist:" ++ a ≠ a := by
  intro h
  have h7 : ("artist:" : String).length = 7 := rfl
  have := congrArg String.length h
  rw [String.length_append, h7] at this
  omega

theorem artistPrefix_inj {a b : String} (h : "artist:" ++ a = "artist:" ++ b) :
    a = b := by
  have hd := congrArg String.data h
  rw [String.data_append, String.data_append] at hd
  exact String.ext (List.append_cancel_left hd)

/-! ## Lemmas about the constant-score insertion folds -/

theorem constFold_get_notMem {c : String} {v : Score} :
    ∀ (L : List String) (d : Dict Score), c ∉ L →
      dictGet? (L.foldl (fun tg k => dictInsert tg k v) d) c = dictGet? d c := by
  intro L
  induction L with
  | nil => intro d _; rfl
  | cons u rest ih =>
    intro d h
    have hu : c ≠ u := fun hh => h (hh ▸ List.mem_cons_self u rest)
    have hr : c ∉ rest := fun hh => h (List.mem_cons_of_mem _ hh)
    rw [List.foldl_cons, ih _ hr, dictGet?_insert_ne _ _ _ _ hu]

theorem constFold_get_mem {c : String} {v : Score} :
    ∀ (L : List String) (d : Dict Score), c ∈ L →
      dictGet? (L.foldl (fun tg k => dictInsert tg k v) d) c = some v := by
  intro L
  induction L with
  | nil => intro d h; simp at h
  | cons u rest ih =>
    intro d h
    by_cases hr : c ∈ rest
    · exact ih _ hr
    · have hc : c = u := by
        rcases List.mem_cons.mp h with h | h
        · exact h
        · exact absurd h hr
      subst hc
      rw [List.foldl_cons, constFold_get_notMem rest _ hr, dictGet?_insert_self]

theorem mem_constFold {v : Score} {kv : String × Score} :
    ∀ (L : List String) (d : Dict Score),
      kv ∈ L.foldl (fun tg k => dictInsert tg k v) d →
      kv ∈ d ∨ (kv.1 ∈ L ∧ kv.2 = v) := by
  intro L
  induction L with
  | nil => intro d h; exact Or.inl h
  | cons u rest ih =>
    intro d h
    rw [List.foldl_cons] at h
    rcases ih _ h with h | h
    · rcases mem_dictInsert h with h | h
      · exact Or.inl h
      · subst h
        exact Or.inr ⟨List.mem_cons_self _ _, rfl⟩
    · exact Or.inr ⟨List.mem_cons_of_mem _ h.1, h.2⟩

/-! ## Lemmas about the meta-tag loop -/

theorem metaTagStep_get_ne (w : List String) (d : Dict Score) (u t : String)
    (h : t ≠ u) : dictGet? (metaTagStep w d u) t = dictGet? d t := by
  unfold metaTagStep
  by_cases hw : u ∈ w
  · rw [if_pos hw, dictGet?_insert_ne _ _ _ _ h]
  · rw [if_neg hw]
    cases hg : dictGet? d u with
    | none => rfl
    | some s =>
      show dictGet? (if s ≠ 0 then dictErase d u else d) t = dictGet? d t
      by_cases hs : s ≠ 0
      · rw [if_pos hs, dictGet?_erase_ne _ _ _ h]
      · rw [if_neg hs]

theorem metaFold_frame (w : List String) {t : String} :
    ∀ (tokens : List String) (d : Dict Score), t ∉ tokens →
      dictGet? (tokens.foldl (metaTagStep w) d) t = dictGet? d t := by
  intro tokens
  induction tokens with
  | nil => intro d _; rfl
  | cons u rest ih =>
    intro d h
    have hu : t ≠ u := fun hh => h (hh ▸ List.mem_cons_self u rest)
    have hr : t ∉ rest := fun hh => h (List.mem_cons_of_mem _ hh)
    rw [List.foldl_cons, ih _ hr, metaTagStep_get_ne w d u t hu]

theorem metaFold_whitelisted (w : List String) {t : String} (hw : t ∈ w) :
    ∀ (tokens : List String) (d : Dict Score), t ∈ tokens →
      dictGet? (tokens.foldl (metaTagStep w) d) t = some 0 := by
  intro tokens
  induction tokens with
  | nil => intro d h; simp at h
  | cons u rest ih =>
    intro d h
    rw [List.foldl_cons]
    by_cases hr : t ∈ rest
    · exact ih _ hr
    · have ht : t = u := by
        rcases List.mem_cons.mp h with h | h
        · exact h
        · exact absurd h hr
      subst ht
      rw [metaFold_frame w rest _ hr]
      unfold metaTagStep
      rw [if_pos hw, dictGet?_insert_self]

theorem metaFold_not_whitelisted (w : List String) {t : String} (hw : t ∉ w) :
    ∀ (tokens : List String) (d : Dict Score), t ∈ tokens →
      dictGet? (tokens.foldl (metaTagStep w) d) t =
        if dictGet? d t = some 0 then some 0 else none := by
  intro tokens
  induction tokens with
  | nil => intro d h; simp at h
  | cons u rest ih =>
    intro d h
    rw [List.foldl_cons]
    by_cases htu : t = u
    · subst htu
      have hstep : dictGet? (metaTagStep w d t) t =
          if dictGet? d t = some 0 then some 0 else none := by
        unfold metaTagStep
        rw [if_neg hw]
        cases hg : dictGet? d t with
        | none => simp [hg]
        | some s =>
          show dictGet? (if s ≠ 0 then dictErase d t else d) t = _
          by_cases hs : s = 0
          · subst hs
            rw [if_neg (by simp), hg]
            simp
          · rw [if_pos hs, dictGet?_erase_self]
            simp [hs]
      by_cases hr : t ∈ rest
      · rw [ih _ hr, hstep]
        by_cases hc : dictGet? d t = some 0
        · simp [hc]
        · simp [hc]
      · rw [metaFold_frame w rest _ hr, hstep]
    · have hr : t ∈ rest := by
        rcases List.mem_cons.mp h with h | h
        · exact absurd h htu
        · exact h
      rw [ih _ hr, metaTagStep_get_ne w d u t htu]

/-! ## Lemmas about the artist loop -/

theorem artistStep_get_self (d : Dict Score) (a : String) :
    dictGet? (artistStep d a) a = none := by
  simp only [artistStep, dictGet?_insert_self]
  exact dictGet?_erase_self _ _

theorem artistStep_get_prefixed (d : Dict Score) (a : String) :
    dictGet? (artistStep d a) ("artist:" ++ a) = some (27 / 10 : ℚ) := by
  simp only [artistStep, dictGet?_insert_self]
  rw [dictGet?_erase_ne _ _ _ (artistPrefix_ne a), dictGet?_insert_self]

theorem artistStep_get_ne (d : Dict Score) (a t : String)
    (h1 : t ≠ a) (h2 : t ≠ "artist:" ++ a) :
    dictGet? (artistStep d a) t = dictGet? d t := by
  simp only [artistStep, dictGet?_insert_self]
  rw [dictGet?_erase_ne _ _ _ h1, dictGet?_insert_ne _ _ _ _ h2,
    dictGet?_insert_ne _ _ _ _ h1]

theorem artistFold_frame {t : String} :
    ∀ (L : List String) (d : Dict Score),
      (∀ b ∈ L, t ≠ b ∧ t ≠ "artist:" ++ b) →
      dictGet? (L.foldl artistStep d) t = dictGet? d t := by
  intro L
  induction L with
  | nil => intro d _; rfl
  | cons u rest ih =>
    intro d H
    have hu := H u (List.mem_cons_self u rest)
    rw [List.foldl_cons, ih _ (fun b hb => H b (List.mem_cons_of_mem _ hb)),
      artistStep_get_ne d u t hu.1 hu.2]

theorem artistFold_self {a : String} :
    ∀ (L : List String) (d : Dict Score),
      (∀ b ∈ L, ∀ x, b ≠ "artist:" ++ x) → a ∈ L →
      dictGet? (L.foldl artistStep d) a = none := by
  intro L
  induction L with
  | nil => intro d _ h; simp at h
  | cons u rest ih =>
    intro d H h
    rw [List.foldl_cons]
    by_cases hr : a ∈ rest
    · exact ih _ (fun b hb => H b (List.mem_cons_of_mem _ hb)) hr
    · have ha : a = u := by
        rcases List.mem_cons.mp h with h | h
        · exact h
        · exact absurd h hr
      subst ha
      have hfr : ∀ b ∈ rest, a ≠ b ∧ a ≠ "artist:" ++ b := by
        intro b hb
        exact ⟨fun hh => hr (hh ▸ hb), H a (List.mem_cons_self a rest) b⟩
      rw [artistFold_frame rest _ hfr]
      exact artistStep_get_self _ _

theorem artistFold_prefixed {a : String} :
    ∀ (L : List String) (d : Dict Score),
      (∀ b ∈ L, ∀ x, b ≠ "artist:" ++ x) → a ∈ L →
      dictGet? (L.foldl artistStep d) ("artist:" ++ a) = some (27 / 10 : ℚ) := by
  intro L
  induction L with
  | nil => intro d _ h; simp at h
  | cons u rest ih =>
    intro d H h
    rw [List.foldl_cons]
    by_cases hr : a ∈ rest
    · exact ih _ (fun b hb => H b (List.mem_cons_of_mem _ hb)) hr
    · have ha : a = u := by
        rcases List.mem_cons.mp h with h | h
        · exact h
        · exact absurd h hr
      subst ha
      have hfr : ∀ b ∈ rest, "artist:" ++ a ≠ b ∧ "artist:" ++ a ≠ "artist:" ++ b := by
        intro b hb
        refine ⟨Ne.symm (H b (List.mem_cons_of_mem _ hb) a), fun hh => ?_⟩
        exact hr (artistPrefix_inj hh ▸ hb)
      rw [artistFold_frame rest _ hfr]
      exact artistStep_get_prefixed _ _

/-! ## Output characterization of `DanbooruTagProcessAction.process` -/

theorem danbooruTagProcess_tags (w : List String) (item : ImageItem)
    (hd : metaDanbooru item.meta ≠ []) :
    outTags w item =
      (dbTokens item "tag_string_artist").foldl artistStep
        ((dbTokens item "tag_string_copyright").foldl
          (fun tg c => dictInsert tg c (28 / 10 : ℚ))
          ((dbTokens item "tag_string_character").foldl
            (fun tg c => dictInsert tg c (29 / 10 : ℚ))
            ((dbTokens item "tag_string_meta").foldl
              (metaTagStep w) (metaTags item.meta)))) := by
  simp only [outTags, danbooruTagProcess, dbTokens, metaTags_overlay, if_neg hd]

theorem danbooruTagProcess_skip (w : List String) (item : ImageItem)
    (hd : metaDanbooru item.meta = []) :
    outTags w item = metaTags item.meta := by
  simp only [outTags, danbooruTagProcess, metaTags_overlay, if_pos hd]

/-- A string shorter than the `artist:` prefix cannot be of the form
`artist:<x>` (used to discharge prefix-freeness side conditions at concrete
inputs). -/
theorem not_artistPrefixed_of_short (b : String) (hlen : b.length < 7) :
    ∀ x, b ≠ "artist:" ++ x := by
  intro x h
  have h7 : ("artist:" : String).length = 7 := rfl
  have := congrArg String.length h
  rw [String.length_append, h7] at this
  omega

/-! ## Claim C6 -/

/-- C6: for every item with a (truthy) danbooru metadata block,
`DanbooruTagProcessAction.process` gives every `tag_string_character` token
score 2.9 and every `tag_string_copyright` token score 2.8 (each provided the
token does not reappear in a later-processed field, whose assignment would
override it), and for every `tag_string_artist` token `a` the output maps
`artist:a` to 2.7 with the unprefixed `a` absent (provided no artist token is
itself of the form `artist:<x>`); for every item without a danbooru block the
tags pass through unchanged and no error occurs. -/
theorem C6_danbooru_reshaping (w : List String) (item : ImageItem) :
    (metaDanbooru item.meta ≠ [] →
      (∀ c ∈ dbTokens item "tag_string_character",
          c ∉ dbTokens item "tag_string_copyright" →
          c ∉ dbTokens item "tag_string_artist" →
          (∀ a ∈ dbTokens item "tag_string_artist", c ≠ "artist:" ++ a) →
          dictGet? (outTags w item) c = some (29 / 10 : ℚ)) ∧
      (∀ r ∈ dbTokens item "tag_string_copyright",
          r ∉ dbTokens item "tag_string_artist" →
          (∀ a ∈ dbTokens item "tag_string_artist", r ≠ "artist:" ++ a) →
          dictGet? (outTags w item) r = some (28 / 10 : ℚ)) ∧
      ((∀ b ∈ dbTokens item "tag_string_artist", ∀ x, b ≠ "artist:" ++ x) →
        ∀ a ∈ dbTokens item "tag_string_artist",
          dictGet? (outTags w item) ("artist:" ++ a) = some (27 / 10 : ℚ) ∧
          dictGet? (outTags w item) a = none)) ∧
    (metaDanbooru item.meta = [] →
      outTags w item = metaTags item.meta ∧
      (danbooruTagProcess w item).image = item.image) := by
  constructor
  · intro hd
    refine ⟨?_, ?_, ?_⟩
    · intro c hc hncp hna hpa
      rw [danbooruTagProcess_tags w item hd,
        artistFold_frame _ _
          (fun a ha => ⟨fun hh => hna (by rw [hh]; exact ha), hpa a ha⟩),
        constFold_get_notMem _ _ hncp]
      exact constFold_get_mem _ _ hc
    · intro r hr hna hpa
      rw [danbooruTagProcess_tags w item hd,
        artistFold_frame _ _
          (fun a ha => ⟨fun hh => hna (by rw [hh]; exact ha), hpa a ha⟩)]
      exact constFold_get_mem _ _ hr
    · intro H a ha
      constructor
      · rw [danbooruTagProcess_tags w item hd]
        exact artistFold_prefixed _ _ H ha
      · rw [danbooruTagProcess_tags w item hd]
        exact artistFold_self _ _ H ha
  · intro hd
    exact ⟨danbooruTagProcess_skip w item hd, rfl⟩

/-- Witness for C6 at `c6Item`. -/
theorem C6_danbooru_reshaping_witness :
    metaDanbooru c6Item.meta ≠ [] ∧
    dictGet? (outTags [] c6Item) "alice" = some (29 / 10 : ℚ) ∧
    dictGet? (outTags [] c6Item) "wonderland" = some (28 / 10 : ℚ) ∧
    dictGet? (outTags [] c6Item) ("artist:" ++ "bob") = some (27 / 10 : ℚ) ∧
    dictGet? (outTags [] c6Item) "bob" = none := by
  have he : dbTokens c6Item "tag_string_artist" = ["bob"] := by decide
  have hart : ∀ b ∈ dbTokens c6Item "tag_string_artist", ∀ x, b ≠ "artist:" ++ x := by
    intro b hb
    rw [he] at hb
    have hb' : b = "bob" := by simpa using hb
    subst hb'
    exact not_artistPrefixed_of_short _ (by decide)
  have hpa : ∀ (t : String), t.length < 7 →
      ∀ a ∈ dbTokens c6Item "tag_string_artist", t ≠ "artist:" ++ a :=
    fun t hlt a _ => not_artistPrefixed_of_short t hlt a
  have hwon : ∀ a ∈ dbTokens c6Item "tag_string_artist",
      "wonderland" ≠ "artist:" ++ a := by
    intro a ha
    rw [he] at ha
    have ha' : a = "bob" := by simpa using ha
    subst ha'
    decide
  refine ⟨by decide, ?_, ?_, ?_, ?_⟩
  · exact ((C6_danbooru_reshaping [] c6Item).1 (by decide)).1 "alice" (by decide)
      (by decide) (by decide) (hpa "alice" (by decide))
  · exact ((C6_danbooru_reshaping [] c6Item).1 (by decide)).2.1 "wonderland"
      (by decide) (by decide) hwon
  · exact (((C6_danbooru_reshaping [] c6Item).1 (by decide)).2.2 hart "bob" (by decide)).1
  · exact (((C6_danbooru_reshaping [] c6Item).1 (by decide)).2.2 hart "bob" (by decide)).2

/-! ## Claim C1 -/

/-- C1 counterexample: the claim says a non-whitelisted `tag_string_meta`
token that is present in the input tags is removed entirely, but the code
guards the deletion with `elif tags.get(meta_tag):`, a truthiness test, so a
token present with score 0 is kept.  At `c1Item` (whitelist empty, token
`random_tag` present with score 0) the claim demands
`dictGet? (outTags [] c1Item) "random_tag" = none`, yet the code yields
`some 0`. -/
theorem C1_counterexample :
    metaDanbooru c1Item.meta ≠ [] ∧
    "random_tag" ∈ dbTokens c1Item "tag_string_meta" ∧
    "random_tag" ∉ ([] : List String) ∧
    dictGet? (metaTags c1Item.meta) "random_tag" = some 0 ∧
    dictGet? (outTags [] c1Item) "random_tag" = some 0 ∧
    ¬(dictGet? (outTags [] c1Item) "random_tag" = none) := by
  decide

/-- C1 (amended): for a `tag_string_meta` token `t` of an item with a danbooru
block, provided `t` does not also occur among the character/copyright/artist
tokens (whose later assignments would override it): if `t` is whitelisted the
output maps it to score 0; otherwise `t` is removed only when its input score
is truthy — a token present with nonzero score is deleted, while a token
present with score 0 keeps score 0 and an absent token stays absent (no
error). -/
theorem C1_meta_tag_handling (w : List String) (item : ImageItem) (t : String)
    (hd : metaDanbooru item.meta ≠ [])
    (ht : t ∈ dbTokens item "tag_string_meta")
    (hc : t ∉ dbTokens item "tag_string_character")
    (hcp : t ∉ dbTokens item "tag_string_copyright")
    (ha : t ∉ dbTokens item "tag_string_artist")
    (hpa : ∀ a ∈ dbTokens item "tag_string_artist", t ≠ "artist:" ++ a) :
    (t ∈ w → dictGet? (outTags w item) t = some 0) ∧
    (t ∉ w → dictGet? (outTags w item) t =
      if dictGet? (metaTags item.meta) t = some 0 then some 0 else none) := by
  have hframes : dictGet? (outTags w item) t =
      dictGet? ((dbTokens item "tag_string_meta").foldl (metaTagStep w)
        (metaTags item.meta)) t := by
    rw [danbooruTagProcess_tags w item hd,
      artistFold_frame _ _
        (fun a haa => ⟨fun hh => ha (by rw [hh]; exact haa), hpa a haa⟩),
      constFold_get_notMem _ _ hcp, constFold_get_notMem _ _ hc]
  constructor
  · intro hw
    rw [hframes]
    exact metaFold_whitelisted w hw _ _ ht
  · intro hw
    rw [hframes]
    exact metaFold_not_whitelisted w hw _ _ ht

/-- Witness for the amended C1 at `c1WItem`: the whitelisted token gets score
0, the non-whitelisted token with truthy score is removed. -/
theorem C1_meta_tag_handling_witness :
    dictGet? (outTags ["official_art"] c1WItem) "official_art" = some 0 ∧
    dictGet? (outTags ["official_art"] c1WItem) "random_tag" = none := by
  have hempty : dbTokens c1WItem "tag_string_artist" = [] := by decide
  have hpa : ∀ t : String, ∀ a ∈ dbTokens c1WItem "tag_string_artist",
      t ≠ "artist:" ++ a := by
    intro t a haa
    rw [hempty] at haa
    exact absurd haa (List.not_mem_nil a)
  constructor
  · exact (C1_meta_tag_handling ["official_art"] c1WItem "official_art"
      (by decide) (by decide) (by decide) (by decide) (by decide)
      (hpa "official_art")).1 (by decide)
  · have h := (C1_meta_tag_handling ["official_art"] c1WItem "random_tag"
      (by decide) (by decide) (by decide) (by decide) (by decide)
      (hpa "random_tag")).2 (by decide)
    rw [h]
    decide

/-! ## Claim C10 -/

/-- C10: a whitelisted `tag_string_meta` token absent from the input tags is
inserted into the output tags with score 0 (not merely re-scored when already
present), provided it does not also occur among the character/copyright/artist
tokens, whose later assignments would override it. -/
theorem C10_whitelisted_meta_inserted (w : List String) (item : ImageItem)
    (t : String)
    (hd : metaDanbooru item.meta ≠ [])
    (ht : t ∈ dbTokens item "tag_string_meta")
    (hw : t ∈ w)
    (habs : dictGet? (metaTags item.meta) t = none)
    (hc : t ∉ dbTokens item "tag_string_character")
    (hcp : t ∉ dbTokens item "tag_string_copyright")
    (ha : t ∉ dbTokens item "tag_string_artist")
    (hpa : ∀ a ∈ dbTokens item "tag_string_artist", t ≠ "artist:" ++ a) :
    dictGet? (outTags w item) t = some 0 := by
  rw [danbooruTagProcess_tags w item hd,
    artistFold_frame _ _
      (fun a haa => ⟨fun hh => ha (by rw [hh]; exact haa), hpa a haa⟩),
    constFold_get_notMem _ _ hcp, constFold_get_notMem _ _ hc]
  exact metaFold_whitelisted w hw _ _ ht

/-- Witness for C10 at `c10Item`. -/
theorem C10_whitelisted_meta_inserted_witness :
    dictGet? (metaTags c10Item.meta) "official_art" = none ∧
    dictGet? (outTags ["official_art"] c10Item) "official_art" = some 0 := by
  have hempty : dbTokens c10Item "tag_string_artist" = [] := by decide
  refine ⟨by decide, ?_⟩
  exact C10_whitelisted_meta_inserted ["official_art"] c10Item "official_art"
    (by decide) (by decide) (by decide) (by decide) (by decide) (by decide)
    (by decide) (fun a haa => absurd (hempty ▸ haa) (List.not_mem_nil a))

/-! ## Claim C3 -/

/-- C3: `TaggingAction.process` with `force=False` on an item that already
carries a `tags` key returns the item unchanged, so a second application is a
content-level no-op. -/
theorem C3_tagging_memoized (act : TaggingAction) (item : ImageItem)
    (htags : dictContains item.meta "tags" = true) (hforce : act.force = false) :
    act.process item = item ∧
    act.process (act.process item) = act.process item := by
  have h : act.process item = item := by
    unfold TaggingAction.process
    rw [htags, hforce]
    simp
  exact ⟨h, by rw [h, h]⟩

/-- Witness for C3 at an item that already has a `tags` key. -/
theorem C3_tagging_memoized_witness :
    dictContains (ImageItem.mk 0 [("tags", MValue.vTags [("a", 1)])]).meta
      "tags" = true ∧
    (TaggingAction.mk (fun _ => []) false).process
        (ImageItem.mk 0 [("tags", MValue.vTags [("a", 1)])]) =
      ImageItem.mk 0 [("tags", MValue.vTags [("a", 1)])] :=
  ⟨by decide, (C3_tagging_memoized (TaggingAction.mk (fun _ => []) false)
    (ImageItem.mk 0 [("tags", MValue.vTags [("a", 1)])]) (by decide) rfl).1⟩

/-! ## Claim C2 -/

theorem iter_eq_singleton_iff (act : TagFilterAction) (item : ImageItem) :
    act.iter item = [act.tagger.process item] ↔
      act.tags.all (tagFilterCheck act.reversed
        (metaTags (act.tagger.process item).meta)) = true := by
  unfold TagFilterAction.iter
  by_cases hb : act.tags.all (tagFilterCheck act.reversed
      (metaTags (act.tagger.process item).meta)) = true
  · simp [hb]
  · simp [hb]

theorem iter_eq_nil_iff (act : TagFilterAction) (item : ImageItem) :
    act.iter item = [] ↔
      ¬(act.tags.all (tagFilterCheck act.reversed
        (metaTags (act.tagger.process item).meta)) = true) := by
  unfold TagFilterAction.iter
  by_cases hb : act.tags.all (tagFilterCheck act.reversed
      (metaTags (act.tagger.process item).meta)) = true
  · simp [hb]
  · simp [hb]

theorem tagFilterCheck_false_iff (tags : Dict Score) (kv : String × Score) :
    tagFilterCheck false tags kv = true ↔
      kv.2 ≤ (dictGet? tags kv.1).getD 0 := by
  simp [tagFilterCheck, not_lt]

theorem tagFilterCheck_true_iff (tags : Dict Score) (kv : String × Score) :
    tagFilterCheck true tags kv = true ↔
      (dictGet? tags kv.1).getD 0 ≤ kv.2 := by
  simp [tagFilterCheck, not_lt]

/-- C2: a `TagFilterAction` constructed from a list yields the (tagged) item
iff every listed tag's score (default 0.0 when absent) is at least the `1e-6`
sentinel; constructed from a mapping with `reversed=True` it rejects the item
iff some required tag's score is strictly above its minimum; in normal mode
it rejects iff some required tag's score is strictly below its minimum. -/
theorem C2_filter_semantics (f : Nat → Dict Score) (item : ImageItem)
    (L : List String) (d : Dict Score) :
    (∀ act, TagFilterAction.init (.ofList L) f false = .ok act →
      (act.iter item = [act.tagger.process item] ↔
        ∀ t ∈ L, mkRat 1 1000000 ≤
          (dictGet? (metaTags (act.tagger.process item).meta) t).getD 0)) ∧
    (∀ act, TagFilterAction.init (.ofDict d) f true = .ok act →
      (act.iter item = [] ↔
        ∃ kv ∈ d, kv.2 <
          (dictGet? (metaTags (act.tagger.process item).meta) kv.1).getD 0)) ∧
    (∀ act, TagFilterAction.init (.ofDict d) f false = .ok act →
      (act.iter item = [] ↔
        ∃ kv ∈ d,
          (dictGet? (metaTags (act.tagger.process item).meta) kv.1).getD 0 <
            kv.2)) := by
  refine ⟨?_, ?_, ?_⟩
  · intro act h
    simp only [TagFilterAction.init, Except.ok.injEq] at h
    subst h
    rw [iter_eq_singleton_iff, List.all_eq_true]
    constructor
    · intro hall t htL
      have hget := @constFold_get_mem t (mkRat 1 1000000) L [] htL
      have hmem := dictGet?_mem hget
      exact (tagFilterCheck_false_iff
        (metaTags ((TaggingAction.mk f false).process item).meta)
        (t, mkRat 1 1000000)).mp (hall _ hmem)
    · intro hL kv hkv
      rcases @mem_constFold (mkRat 1 1000000) kv L [] hkv with h | h
      · exact absurd h (List.not_mem_nil kv)
      · refine (tagFilterCheck_false_iff _ _).mpr ?_
        rw [h.2]
        exact hL kv.1 h.1
  · intro act h
    simp only [TagFilterAction.init, Except.ok.injEq] at h
    subst h
    rw [iter_eq_nil_iff, List.all_eq_true]
    constructor
    · intro hno
      by_contra hex
      push_neg at hex
      exact hno (fun kv hkv => (tagFilterCheck_true_iff _ _).mpr (hex kv hkv))
    · rintro ⟨kv, hkv, hlt⟩ hall
      exact absurd hlt (not_lt.mpr ((tagFilterCheck_true_iff _ _).mp (hall kv hkv)))
  · intro act h
    simp only [TagFilterAction.init, Except.ok.injEq] at h
    subst h
    rw [iter_eq_nil_iff, List.all_eq_true]
    constructor
    · intro hno
      by_contra hex
      push_neg at hex
      exact hno (fun kv hkv => (tagFilterCheck_false_iff _ _).mpr (hex kv hkv))
    · rintro ⟨kv, hkv, hlt⟩ hall
      exact absurd hlt (not_lt.mpr ((tagFilterCheck_false_iff _ _).mp (hall kv hkv)))

/-- Witness for C2: backend tags the image `{"x": 1}`; the list filter
`["x"]` accepts, the reversed filter `{"x": 0}` rejects (score 1 > 0), the
normal filter `{"x": 0}` accepts (score 1 is not below 0). -/
theorem C2_filter_semantics_witness :
    TagFilterAction.iter
        ⟨[("x", mkRat 1 1000000)], ⟨fun _ => [("x", 1)], false⟩, false⟩ ⟨0, []⟩ =
      [(TaggingAction.mk (fun _ => [("x", 1)]) false).process ⟨0, []⟩] ∧
    TagFilterAction.iter
        ⟨[("x", 0)], ⟨fun _ => [("x", 1)], false⟩, true⟩ ⟨0, []⟩ = [] ∧
    ¬(TagFilterAction.iter
        ⟨[("x", 0)], ⟨fun _ => [("x", 1)], false⟩, false⟩ ⟨0, []⟩ = []) := by
  refine ⟨?_, ?_, ?_⟩
  · exact ((C2_filter_semantics (fun _ => [("x", 1)]) ⟨0, []⟩ ["x"]
      [("x", 0)]).1 _ rfl).mpr (by decide)
  · exact ((C2_filter_semantics (fun _ => [("x", 1)]) ⟨0, []⟩ ["x"]
      [("x", 0)]).2.1 _ rfl).mpr (by decide)
  · intro hnil
    have hex := ((C2_filter_semantics (fun _ => [("x", 1)]) ⟨0, []⟩ ["x"]
      [("x", 0)]).2.2 _ rfl).mp hnil
    exact absurd hex (by decide)

/-! ## Claim C9 -/

/-- C9: constructing a `TagFilterAction` from a list or a mapping succeeds,
while any other `tags` argument fails with a type-mismatch error at
construction time, before any item is processed. -/
theorem C9_init_type_check (f : Nat → Dict Score) (rev : Bool) :
    (∀ L : List String, ∃ act, TagFilterAction.init (.ofList L) f rev = .ok act) ∧
    (∀ d : Dict Score, ∃ act, TagFilterAction.init (.ofDict d) f rev = .ok act) ∧
    (∃ msg, TagFilterAction.init .other f rev = .error msg) :=
  ⟨fun _ => ⟨_, rfl⟩, fun _ => ⟨_, rfl⟩, ⟨_, rfl⟩⟩

/-! ## Claim C7 -/

/-- C7: every tag-mutating process action of the tagging module
(`TagOverlapDropAction`, `DanbooruTagProcessAction`,
`TagNSFWOrExplicitAction`, `TagDropAction`, `BlacklistedTagDropAction`,
`TagRemoveUnderlineAction`) returns a new item with the input's image whose
metadata is the input metadata with only the `tags` key overlaid; in this
pure embedding the input item is a value, so its metadata and tags mappings
are never mutated. -/
theorem C7_metadata_overlay_frame (fdo : Dict Score → Dict Score)
    (w : List String) (fr : Nat → String × Score) (ds : List String)
    (bl : String → Bool) (ru : String → String) (item : ImageItem) :
    overlayFrameOn (tagOverlapDrop fdo item) item ∧
    overlayFrameOn (danbooruTagProcess w item) item ∧
    overlayFrameOn (tagNSFWOrExplicit fr item) item ∧
    overlayFrameOn (tagDrop ds item) item ∧
    overlayFrameOn (blacklistedTagDrop bl item) item ∧
    overlayFrameOn (tagRemoveUnderline ru item) item := by
  have frame : ∀ t : Dict Score,
      overlayFrameOn ⟨item.image, dictInsert item.meta "tags" (MValue.vTags t)⟩
        item :=
    fun t => ⟨rfl, ⟨t, rfl⟩, fun k hk => dictGet?_insert_ne _ _ _ _ hk⟩
  exact ⟨frame _, frame _, frame _, frame _, frame _, frame _⟩

/-- Witness for C7: `TagDropAction` on a concrete item preserves the
`filename` metadata entry. -/
theorem C7_metadata_overlay_frame_witness :
    ("filename" : String) ≠ "tags" ∧
    dictGet? (tagDrop ["a"] (ImageItem.mk 7 [("filename", MValue.vStr "f"),
      ("tags", MValue.vTags [("a", 1)])])).meta "filename" =
      dictGet? (ImageItem.mk 7 [("filename", MValue.vStr "f"),
        ("tags", MValue.vTags [("a", 1)])]).meta "filename" :=
  ⟨by decide,
   (C7_metadata_overlay_frame (fun t => t) [] (fun _ => ("safe", 0)) ["a"]
     (fun _ => false) (fun s => s)
     (ImageItem.mk 7 [("filename", MValue.vStr "f"),
       ("tags", MValue.vTags [("a", 1)])])).2.2.2.1.2.2 "filename" (by decide)⟩

/-! ## Claim C8 -/

/-- C8: `TagNSFWOrExplicitAction.process` maps rating `r15` to
`tags["nsfw"] = score`, rating `r18` to `tags["explicit"] = score` with no
`nsfw` key added, and leaves the tags mapping content-unchanged for every
other rating. -/
theorem C8_rating_mapping (f : Nat → String × Score) (item : ImageItem) :
    ((f item.image).1 = "r15" →
      dictGet? (metaTags (tagNSFWOrExplicit f item).meta) "nsfw" =
        some (f item.image).2) ∧
    ((f item.image).1 = "r18" →
      dictGet? (metaTags (tagNSFWOrExplicit f item).meta) "explicit" =
        some (f item.image).2 ∧
      dictGet? (metaTags (tagNSFWOrExplicit f item).meta) "nsfw" =
        dictGet? (metaTags item.meta) "nsfw") ∧
    ((f item.image).1 ≠ "r15" → (f item.image).1 ≠ "r18" →
      metaTags (tagNSFWOrExplicit f item).meta = metaTags item.meta) := by
  simp only [tagNSFWOrExplicit, metaTags_overlay]
  refine ⟨?_, ?_, ?_⟩
  · intro h
    rw [if_neg (by rw [h]; decide), if_pos h]
    exact dictGet?_insert_self _ _ _
  · intro h
    rw [if_pos h, if_neg (by rw [h]; decide)]
    exact ⟨dictGet?_insert_self _ _ _, dictGet?_insert_ne _ _ _ _ (by decide)⟩
  · intro h1 h2
    rw [if_neg h2, if_neg h1]

/-- Witness for C8: a classifier returning `("r18", 1)` yields
`tags["explicit"] = 1`. -/
theorem C8_rating_mapping_witness :
    dictGet? (metaTags (tagNSFWOrExplicit (fun _ => ("r18", 1))
      (ImageItem.mk 0 [])).meta) "explicit" = some 1 ∧
    dictGet? (metaTags (tagNSFWOrExplicit (fun _ => ("r18", 1))
      (ImageItem.mk 0 [])).meta) "nsfw" =
      dictGet? (metaTags (ImageItem.mk 0 []).meta) "nsfw" :=
  (C8_rating_mapping (fun _ => ("r18", 1)) (ImageItem.mk 0 [])).2.1 rfl

/-! ## Claims C4 and C5 (source composition, modelled from the spec) -/

theorem sourceMerge_nil (b : List ImageItem) : sourceMerge [] b = b := by
  rw [sourceMerge]

theorem sourceMerge_cons (a : ImageItem) (as b : List ImageItem) :
    sourceMerge (a :: as) b = a :: sourceMerge b as := by
  rw [sourceMerge]

theorem sourceMerge_cons₂ (a b : ImageItem) (as bs : List ImageItem) :
    sourceMerge (a :: as) (b :: bs) = a :: b :: sourceMerge as bs := by
  rw [sourceMerge_cons, sourceMerge_cons]

theorem sourceMerge_length_eq :
    ∀ A B : List ImageItem, A.length = B.length →
      (sourceMerge A B).length = A.length + B.length := by
  intro A
  induction A with
  | nil =>
    intro B h
    have hB : B = [] := by
      cases B with
      | nil => rfl
      | cons b bs => simp at h
    subst hB
    simp [sourceMerge]
  | cons a as ih =>
    intro B h
    cases B with
    | nil => simp at h
    | cons b bs =>
      rw [sourceMerge_cons₂]
      simp only [List.length_cons] at h ⊢
      rw [ih bs (by omega)]
      omega

theorem sourceMerge_drop_two_mul :
    ∀ (k : Nat) (A B : List ImageItem), A.length = B.length →
      (sourceMerge A B).drop (2 * k) = sourceMerge (A.drop k) (B.drop k) := by
  intro k
  induction k with
  | zero => intro A B _; simp
  | succ n ih =>
    intro A B h
    cases A with
    | nil =>
      have hB : B = [] := by
        cases B with
        | nil => rfl
        | cons b bs => simp at h
      subst hB
      simp [sourceMerge]
    | cons a as =>
      cases B with
      | nil => simp at h
      | cons b bs =>
        rw [sourceMerge_cons₂]
        rw [show 2 * (n + 1) = 2 * n + 1 + 1 by ring]
        rw [List.drop_succ_cons, List.drop_succ_cons, List.drop_succ_cons,
          List.drop_succ_cons]
        exact ih as bs (by simpa using h)

/-- C4: the chained source `A + B` yields a sequence of length `n + m` whose
first `n` items are `A`'s items in `A`'s order and whose remaining `m` items
are `B`'s items in `B`'s order; `B + A` puts `B`'s block first. -/
theorem C4_chain_order (A B : List ImageItem) :
    (sourceChain A B).length = A.length + B.length ∧
    (sourceChain A B).take A.length = A ∧
    (sourceChain A B).drop A.length = B ∧
    (sourceChain B A).take B.length = B ∧
    (sourceChain B A).drop B.length = A := by
  refine ⟨?_, ?_, ?_, ?_, ?_⟩ <;> simp [sourceChain]

/-- C5: for sources A and B of 20 items each, identifiable by a source marker
`P` (true on A's items, false on B's), the merged source has 40 items and
neither the first 20 nor the last 20 items are all from one source. -/
theorem C5_merge_fairness (A B : List ImageItem) (P : ImageItem → Bool)
    (hA : A.length = 20) (hB : B.length = 20)
    (hPA : ∀ x ∈ A, P x = true) (hPB : ∀ x ∈ B, P x = false) :
    (sourceMerge A B).length = 40 ∧
    ¬(∀ x ∈ (sourceMerge A B).take 20, P x = true) ∧
    ¬(∀ x ∈ (sourceMerge A B).take 20, P x = false) ∧
    ¬(∀ x ∈ (sourceMerge A B).drop 20, P x = true) ∧
    ¬(∀ x ∈ (sourceMerge A B).drop 20, P x = false) := by
  obtain ⟨a, as, rfl⟩ : ∃ x xs, A = x :: xs := by
    cases A with
    | nil => simp at hA
    | cons x xs => exact ⟨x, xs, rfl⟩
  obtain ⟨b, bs, rfl⟩ : ∃ x xs, B = x :: xs := by
    cases B with
    | nil => simp at hB
    | cons x xs => exact ⟨x, xs, rfl⟩
  have hlen : (a :: as).length = (b :: bs).length := hA.trans hB.symm
  have htake : (sourceMerge (a :: as) (b :: bs)).take 20 =
      a :: b :: (sourceMerge as bs).take 18 := by
    rw [sourceMerge_cons₂, show (20 : Nat) = 18 + 1 + 1 from rfl,
      List.take_succ_cons, List.take_succ_cons]
  have hdrop : (sourceMerge (a :: as) (b :: bs)).drop 20 =
      sourceMerge ((a :: as).drop 10) ((b :: bs).drop 10) := by
    have h := sourceMerge_drop_two_mul 10 (a :: as) (b :: bs) hlen
    simpa using h
  obtain ⟨a', as', hA'⟩ : ∃ x xs, (a :: as).drop 10 = x :: xs := by
    have hl : ((a :: as).drop 10).length = 10 := by
      rw [List.length_drop, hA]
    cases hh : (a :: as).drop 10 with
    | nil => rw [hh] at hl; simp at hl
    | cons x xs => exact ⟨x, xs, rfl⟩
  obtain ⟨b', bs', hB'⟩ : ∃ x xs, (b :: bs).drop 10 = x :: xs := by
    have hl : ((b :: bs).drop 10).length = 10 := by
      rw [List.length_drop, hB]
    cases hh : (b :: bs).drop 10 with
    | nil => rw [hh] at hl; simp at hl
    | cons x xs => exact ⟨x, xs, rfl⟩
  have ha'mem : a' ∈ a :: as :=
    List.drop_subset 10 (a :: as) (by rw [hA']; exact List.mem_cons_self _ _)
  have hb'mem : b' ∈ b :: bs :=
    List.drop_subset 10 (b :: bs) (by rw [hB']; exact List.mem_cons_self _ _)
  refine ⟨?_, ?_, ?_, ?_, ?_⟩
  · rw [sourceMerge_length_eq _ _ hlen, hA, hB]
  · intro hall
    have hb1 := hall b (by
      rw [htake]
      exact List.mem_cons_of_mem _ (List.mem_cons_self _ _))
    rw [hPB b (List.mem_cons_self _ _)] at hb1
    exact absurd hb1 (by decide)
  · intro hall
    have ha1 := hall a (by
      rw [htake]
      exact List.mem_cons_self _ _)
    rw [hPA a (List.mem_cons_self _ _)] at ha1
    exact absurd ha1 (by decide)
  · intro hall
    have hb1 := hall b' (by
      rw [hdrop, hA', hB', sourceMerge_cons₂]
      exact List.mem_cons_of_mem _ (List.mem_cons_self _ _))
    rw [hPB b' hb'mem] at hb1
    exact absurd hb1 (by decide)
  · intro hall
    have ha1 := hall a' (by
      rw [hdrop, hA', hB', sourceMerge_cons₂]
      exact List.mem_cons_self _ _)
    rw [hPA a' ha'mem] at ha1
    exact absurd ha1 (by decide)

/-- Witness for C5 at two concrete 20-item sources. -/
theorem C5_merge_fairness_witness :
    (∀ x ∈ c5A, c5P x = true) ∧ (∀ x ∈ c5B, c5P x = false) ∧
    (sourceMerge c5A c5B).length = 40 ∧
    ¬(∀ x ∈ (sourceMerge c5A c5B).take 20, c5P x = true) ∧
    ¬(∀ x ∈ (sourceMerge c5A c5B).take 20, c5P x = false) ∧
    ¬(∀ x ∈ (sourceMerge c5A c5B).drop 20, c5P x = true) ∧
    ¬(∀ x ∈ (sourceMerge c5A c5B).drop 20, c5P x = false) := by
  have h := C5_merge_fairness c5A c5B c5P (by decide) (by decide) (by decide)
    (by decide)
  exact ⟨by decide, by decide, h.1, h.2.1, h.2.2.1, h.2.2.2.1, h.2.2.2.2⟩
